import Mathlib

/-!
Shallow embedding of the `maths` module of the active_particles repository
(source file `maths.py`) together with theorems settling specification
claims about its radial (cylindrical) averaging routines, its
`FFT2Dfilter` Fourier-filter class, its `Grid` lookup, and its periodic
`Wrap` evaluator.

Modelling conventions, used throughout:
* machine floats are modelled as real numbers (`ℝ`), complex signal
  entries as `ℂ`;
* a numpy `n × m` array is modelled as a function out of an index type;
  Python/numpy negative indexing on an axis of length `n` (an index `k`
  with `-n ≤ k < n` resolves to `k % n`) is modelled by indexing with
  `ZMod n`, whose `Nat`-cast and negation reproduce exactly that
  resolution for the indices the source produces;
* `scipy.interpolate.griddata`, an external collaborator, is abstracted
  as an arbitrary function argument (the interpolant of the fixed sample
  set for the chosen method and fill value);
* a Python method that returns `None` on a guard is modelled with
  `Option`; a method that can additionally raise (numpy `IndexError`) is
  modelled with a second `Option` layer whose `none` is the exception.
-/

open Classical

noncomputable section

namespace ActiveParticles

/-- Arithmetic mean of a list of reals, as `np.mean` computes it:
sum divided by length (with the junk value `0/0 = 0` on the empty list,
which the source never hits because every stored bin is nonempty). -/
def listMean (l : List ℝ) : ℝ := l.sum / l.length

/-- Index pairs referenced by one loop iteration `(i, j)` of `g2Dto1D` /
`g2Dto1Dsquare`, in source order:
`[i, j]`, `[-i, j]`, `[i, -j]`, `[-i, -j]`, with Python negative
indexing resolved in `ZMod`. -/
def posList (n m : ℕ) (i j : ℕ) : List (ZMod n × ZMod m) :=
  [((i : ZMod n), (j : ZMod m)), (-(i : ZMod n), (j : ZMod m)),
    ((i : ZMod n), -(j : ZMod m)), (-(i : ZMod n), -(j : ZMod m))]

/-- The four samples appended to the bin of loop indices `(i, j)` by
`g2Dto1D` and `g2Dto1Dsquare`:
`[g2D[i, j], g2D[-i, j], g2D[i, -j], g2D[-i, -j]]`. -/
def sampleList {n m : ℕ} (g : ZMod n → ZMod m → ℝ) (i j : ℕ) : List ℝ :=
  [g i j, g (-(i : ZMod n)) j, g i (-(j : ZMod m)),
    g (-(i : ZMod n)) (-(j : ZMod m))]

/-- Radius assigned by `g2Dto1D` to loop indices `(i, j)`:
`np.sqrt(np.sum((np.array((i, j)) * dL) ** 2))` with
`dL = np.array(L) / np.array(g2D.shape)`. -/
def radius (L : Fin 2 → ℝ) (n m : ℕ) (i j : ℕ) : ℝ :=
  Real.sqrt ((i * (L 0 / n)) ^ 2 + (j * (L 1 / m)) ^ 2)

/-- Radius cutoff of `g2Dto1D`: `r_max = np.min(L) / 2`. -/
def r_max (L : Fin 2 → ℝ) : ℝ := min (L 0) (L 1) / 2

/-- Loop index pairs `(i, j)` of `g2Dto1D` (`i in range(n)`,
`j in range(m)`). -/
def gridPairs (n m : ℕ) : Finset (ℕ × ℕ) := Finset.range n ×ˢ Finset.range m

/-- Index pairs selected by the `radius <= r_max` cutoff of `g2Dto1D`. -/
def g2Dto1D_sel (n m : ℕ) (L : Fin 2 → ℝ) : Finset (ℕ × ℕ) :=
  (gridPairs n m).filter (fun q => radius L n m q.1 q.2 ≤ r_max L)

/-- Keys present in the `g1D_dic` hash table of `g2Dto1D` after the loop:
the radii of the selected index pairs. -/
def g2Dto1D_keys (n m : ℕ) (L : Fin 2 → ℝ) : Finset ℝ :=
  (g2Dto1D_sel n m L).image (fun q => radius L n m q.1 q.2)

/-- Value list stored under key `r` in the `g1D_dic` hash table of
`g2Dto1D` after the loop: the `DictList` accumulates, in iteration order
(`i` outer, `j` inner), the four samples of every selected pair whose
radius equals `r` exactly. -/
def g2Dto1D_dic {n m : ℕ} (g : ZMod n → ZMod m → ℝ) (L : Fin 2 → ℝ)
    (r : ℝ) : List ℝ :=
  (List.range n).flatMap (fun i => (List.range m).flatMap (fun j =>
    if radius L n m i j ≤ r_max L ∧ radius L n m i j = r then sampleList g i j
    else []))

/-- Embedding of `g2Dto1D(g2D, L)`: the list of
`[radius, np.mean(g1D_dic[radius])]` rows over `sorted(g1D_dic)`. -/
def g2Dto1D {n m : ℕ} (g : ZMod n → ZMod m → ℝ) (L : Fin 2 → ℝ) :
    List (ℝ × ℝ) :=
  ((g2Dto1D_keys n m L).sort (· ≤ ·)).map
    (fun r => (r, listMean (g2Dto1D_dic g L r)))

/-- Squared-radius cutoff of `g2Dto1Dsquare`:
`sq_r_max = (g2D.shape[0] / 2) ** 2` (Python true division, hence a
float). -/
def sq_r_max (n : ℕ) : ℝ := ((n : ℝ) / 2) ^ 2

/-- Index pairs selected by the `sqradius <= sq_r_max` cutoff of
`g2Dto1Dsquare`. -/
def g2Dto1Dsquare_sel (n : ℕ) : Finset (ℕ × ℕ) :=
  (gridPairs n n).filter (fun q => ((q.1 ^ 2 + q.2 ^ 2 : ℕ) : ℝ) ≤ sq_r_max n)

/-- Keys present in the `g1D_dic` hash table of `g2Dto1Dsquare` after the
loop: the integer squared radii `i² + j²` of the selected pairs. -/
def g2Dto1Dsquare_keys (n : ℕ) : Finset ℕ :=
  (g2Dto1Dsquare_sel n).image (fun q => q.1 ^ 2 + q.2 ^ 2)

/-- Value list stored under integer key `s` in the `g1D_dic` hash table
of `g2Dto1Dsquare` after the loop. -/
def g2Dto1Dsquare_dic {n : ℕ} (g : ZMod n → ZMod n → ℝ) (s : ℕ) : List ℝ :=
  (List.range n).flatMap (fun i => (List.range n).flatMap (fun j =>
    if ((i ^ 2 + j ^ 2 : ℕ) : ℝ) ≤ sq_r_max n ∧ i ^ 2 + j ^ 2 = s then
      sampleList g i j
    else []))

/-- Embedding of `g2Dto1Dsquare(g2D, L)`: rows
`[dL * np.sqrt(sqradius), np.mean(g1D_dic[sqradius])]` over
`sorted(g1D_dic)`, with `dL = L / g2D.shape[0]`. -/
def g2Dto1Dsquare {n : ℕ} (g : ZMod n → ZMod n → ℝ) (L : ℝ) :
    List (ℝ × ℝ) :=
  ((g2Dto1Dsquare_keys n).sort (· ≤ ·)).map
    (fun s : ℕ => (L / n * Real.sqrt s, listMean (g2Dto1Dsquare_dic g s)))

/-- Keys present in the `g1D_dic` hash table of `g2Dto1Dgrid` after the
loop: every cell contributes its radius-grid entry (no cutoff, no
symmetry folding). -/
def g2Dto1Dgrid_keys {n m : ℕ} (rgrid : ZMod n → ZMod m → ℝ) : Finset ℝ :=
  (gridPairs n m).image (fun q => rgrid q.1 q.2)

/-- Value list stored under key `r` in the `g1D_dic` hash table of
`g2Dto1Dgrid` after the loop: each cell `(i, j)` contributes the single
sample `g2D[i, j]` under key `grid[i, j]`. -/
def g2Dto1Dgrid_dic {n m : ℕ} (g rgrid : ZMod n → ZMod m → ℝ) (r : ℝ) :
    List ℝ :=
  (List.range n).flatMap (fun i => (List.range m).flatMap (fun j =>
    if rgrid i j = r then [g i j] else []))

/-- Embedding of the `g1D` profile returned by `g2Dto1Dgrid(g2D, grid)`. -/
def g2Dto1Dgrid {n m : ℕ} (g rgrid : ZMod n → ZMod m → ℝ) : List (ℝ × ℝ) :=
  ((g2Dto1Dgrid_keys rgrid).sort (· ≤ ·)).map
    (fun r => (r, listMean (g2Dto1Dgrid_dic g rgrid r)))

/-- One iteration of the scatter loop of `g2Dto1Dgrid` with
`average_grid=True`: given a profile row `(radius, mean_g)`, set every
cell where `grid == radius` to `mean_g` (`np.where` assignment). -/
def scatterRow {n m : ℕ} (rgrid : ZMod n → ZMod m → ℝ) (row : ℝ × ℝ)
    (acc : ZMod n → ZMod m → ℝ) : ZMod n → ZMod m → ℝ :=
  fun a b => if rgrid a b = row.1 then row.2 else acc a b

/-- Embedding of the `g2D_cylindrical` grid returned by
`g2Dto1Dgrid(g2D, grid, average_grid=True)`: starting from `np.zeros`,
scatter each profile row back onto the cells matching its radius key. -/
def g2Dto1Dgrid_cyl {n m : ℕ} (g rgrid : ZMod n → ZMod m → ℝ) :
    ZMod n → ZMod m → ℝ :=
  (g2Dto1Dgrid g rgrid).foldl (fun acc row => scatterRow rgrid row acc)
    (fun _ _ => 0)

/-- State of an `FFT2Dfilter` object with a fixed `(n, m)` leading shape:
its three attributes `signalFFT`, `wave_vectors` and `wave_vectors_norm`.
`V` is the entry type of the coefficient array (`ℂ` for a scalar signal,
`Fin l → ℂ` for a signal with a trailing vector axis). -/
structure FFT2Dfilter (n m : ℕ) (V : Type) where
  signalFFT : Fin n → Fin m → V
  wave_vectors : Fin n → Fin m → ℝ × ℝ
  wave_vectors_norm : Fin n → Fin m → ℝ

variable {n m : ℕ} {V : Type}

/-- Embedding of `FFT2Dfilter.cut_low_wave_frequencies(threshold)`: the
deep copy's coefficients at bins with `wave_vectors_norm < threshold` are
set to `0`; the other two attributes are copied unchanged. -/
def FFT2Dfilter.cut_low_wave_frequencies [Zero V] (f : FFT2Dfilter n m V)
    (threshold : ℝ) : FFT2Dfilter n m V :=
  { f with signalFFT := fun i j =>
      if f.wave_vectors_norm i j < threshold then 0 else f.signalFFT i j }

/-- Embedding of `FFT2Dfilter.cut_high_wave_frequencies(threshold)`:
coefficients at bins with `wave_vectors_norm > threshold` are set to `0`. -/
def FFT2Dfilter.cut_high_wave_frequencies [Zero V] (f : FFT2Dfilter n m V)
    (threshold : ℝ) : FFT2Dfilter n m V :=
  { f with signalFFT := fun i j =>
      if f.wave_vectors_norm i j > threshold then 0 else f.signalFFT i j }

/-- Embedding of `FFT2Dfilter.cut_low_wave_lengths(threshold)`: the
source delegates to
`cut_high_wave_frequencies(np.divide(2*np.pi, threshold))`.  For a
nonzero threshold that argument is the real quotient `2π/threshold`; at
threshold 0, `np.divide(2*np.pi, 0)` is the float `inf`, and the mask
`wave_vectors_norm > inf` holds at no bin (the norms are finite reals),
so the deep copy is returned with nothing zeroed. -/
def FFT2Dfilter.cut_low_wave_lengths [Zero V] (f : FFT2Dfilter n m V)
    (threshold : ℝ) : FFT2Dfilter n m V :=
  if threshold = 0 then f
  else f.cut_high_wave_frequencies (2 * Real.pi / threshold)

/-- Embedding of `FFT2Dfilter.cut_high_wave_lengths(threshold)`: the
source delegates to
`cut_low_wave_frequencies(np.divide(2*np.pi, threshold))`.  For a
nonzero threshold that argument is the real quotient `2π/threshold`; at
threshold 0 it is the float `inf`, and the mask
`wave_vectors_norm < inf` holds at every bin (the norms are finite
reals), so every coefficient of the deep copy is zeroed. -/
def FFT2Dfilter.cut_high_wave_lengths [Zero V] (f : FFT2Dfilter n m V)
    (threshold : ℝ) : FFT2Dfilter n m V :=
  if threshold = 0 then { f with signalFFT := fun _ _ => 0 }
  else f.cut_low_wave_frequencies (2 * Real.pi / threshold)

/-- The scalar factor `exp(-1/2 * sigma² * |k|²)` that
`FFT2Dfilter.gaussian_filter` applies at the bin of wave vector `k`. -/
def gaussianCoefficient (σ : ℝ) (k : ℝ × ℝ) : ℝ :=
  Real.exp (-(1 / 2) * σ ^ 2 * (k.1 ^ 2 + k.2 ^ 2))

/-- Embedding of `FFT2Dfilter.gaussian_filter(sigma)`: for `sigma == 0`
the deep copy is returned unfiltered; otherwise each coefficient is
multiplied by the real factor `exp(-1/2 sigma² |k|²)` of its own bin,
broadcast over a trailing vector axis when present (scalar action of `ℂ`
on `V`). -/
def FFT2Dfilter.gaussian_filter [AddCommMonoid V] [Module ℂ V]
    (f : FFT2Dfilter n m V) (σ : ℝ) : FFT2Dfilter n m V :=
  if σ = 0 then f
  else
    { f with signalFFT := fun i j =>
        ((gaussianCoefficient σ (f.wave_vectors i j) : ℝ) : ℂ) •
          f.signalFFT i j }

/-- Embedding of `FFT2Dfilter.get_signal()`: the inverse 2D discrete
Fourier transform `np.fft.ifft2` of the coefficient array,
`signal[a, b] = (1 / (n m)) Σ_{i,j} signalFFT[i, j] e^{2πI(ia/n + jb/m)}`. -/
def FFT2Dfilter.get_signal [AddCommMonoid V] [Module ℂ V]
    (f : FFT2Dfilter n m V) : Fin n → Fin m → V :=
  fun a b => ∑ i : Fin n, ∑ j : Fin m,
    ((Complex.exp (2 * Real.pi * Complex.I *
        ((i : ℕ) * (a : ℕ) / (n : ℂ) + (j : ℕ) * (b : ℕ) / (m : ℂ))) /
      ((n : ℂ) * (m : ℂ))) • f.signalFFT i j)

/-- Attributes of an `FFT2Dfilter` object as built by `__init__`, with
arrays kept as raw (shape-carrying) nested lists, so that inputs whose
shapes disagree are expressible. -/
structure FFT2DfilterRaw where
  signalFFT : List (List ℂ)
  wave_vectors : List (List (ℝ × ℝ))
  wave_vectors_norm : List (List ℝ)

/-- Value `np.fft.fftfreq(n, d)[i]` (for `0 ≤ i < n`): ascending
frequencies from `0`, wrapping to negative values past the Nyquist
index. -/
def npfftfreq (n : ℕ) (d : ℝ) (i : ℕ) : ℝ :=
  if i < (n + 1) / 2 then i / (n * d) else ((i : ℤ) - n) / (n * d)

/-- Embedding of `wave_vectors_2D(nx, ny, d)` as a nested list:
`2π * vector_vector_grid(np.fft.fftfreq(nx, d), np.fft.fftfreq(ny, d))`. -/
def wave_vectors_2D_list (nx ny : ℕ) (d : ℝ) : List (List (ℝ × ℝ)) :=
  (List.range nx).map (fun i => (List.range ny).map
    (fun j => (2 * Real.pi * npfftfreq nx d i, 2 * Real.pi * npfftfreq ny d j)))

/-- Norm array `np.sqrt(np.sum(wave_vectors ** 2, axis=-1))` computed by
`__init__` from whatever wave-vector array it holds. -/
def rawNorm (w : List (List (ℝ × ℝ))) : List (List ℝ) :=
  w.map (List.map (fun k => Real.sqrt (k.1 ^ 2 + k.2 ^ 2)))

/-- Embedding of `FFT2Dfilter.__init__(signalFFT, d, **kwargs)`: stores
the coefficient array, takes the wave-vector array from the keyword
argument when supplied (`none` models an absent keyword, in which case
`wave_vectors_2D` is computed from the coefficient array's leading
shape), and derives the norm array.  The source performs no validation
of any kind, so construction is total. -/
def FFT2Dfilter_init (signalFFT : List (List ℂ)) (d : ℝ)
    (wave_vectors : Option (List (List (ℝ × ℝ)))) : FFT2DfilterRaw :=
  let w := wave_vectors.getD
    (wave_vectors_2D_list signalFFT.length (signalFFT.headD []).length d)
  ⟨signalFFT, w, rawNorm w⟩

/-- State of a `Grid` object: the 2D sample array (first axis length
`n`, second axis length `m`) and the extent tuple
`(left, right, bottom, top)`. -/
structure Grid (n m : ℕ) (V : Type) where
  grid : Fin n → Fin m → V
  extent : ℝ × ℝ × ℝ × ℝ

/-- Component `extent[0]` of a `Grid`. -/
def Grid.left (G : Grid n m V) : ℝ := G.extent.1

/-- Component `extent[1]` of a `Grid`. -/
def Grid.right (G : Grid n m V) : ℝ := G.extent.2.1

/-- Component `extent[2]` of a `Grid`. -/
def Grid.bottom (G : Grid n m V) : ℝ := G.extent.2.2.1

/-- Component `extent[3]` of a `Grid`. -/
def Grid.top (G : Grid n m V) : ℝ := G.extent.2.2.2

/-- Attribute `sep_boxes_x = (extent[1] - extent[0]) / shape[0]`. -/
def Grid.sep_boxes_x (G : Grid n m V) : ℝ := (G.right - G.left) / n

/-- Attribute `sep_boxes_y = (extent[3] - extent[2]) / shape[1]`. -/
def Grid.sep_boxes_y (G : Grid n m V) : ℝ := (G.top - G.bottom) / m

/-- Embedding of `Grid.in_grid(x, y)`: `(x, y)` lies in the closed
extent rectangle. -/
def Grid.in_grid (G : Grid n m V) (x y : ℝ) : Prop :=
  G.left ≤ x ∧ x ≤ G.right ∧ G.bottom ≤ y ∧ y ≤ G.top

/-- Numpy integer indexing on an axis of length `len`: an index `k` with
`0 ≤ k < len` resolves directly, a negative `k` with `-len ≤ k` resolves
to `k + len`, and anything else raises `IndexError` (modelled `none`). -/
def npIndex (len : ℕ) (k : ℤ) : Option (Fin len) :=
  if h : 0 ≤ k ∧ k < (len : ℤ) then some ⟨k.toNat, by omega⟩
  else if h2 : -(len : ℤ) ≤ k ∧ k < 0 then some ⟨(k + len).toNat, by omega⟩
  else none

/-- Second-axis index computed by `Grid.get_value_cartesian`:
`int((x - extent[0]) // sep_boxes_x) % shape[0]` (Python floor division
then Python modulo, which is `Int.emod`). -/
def Grid.index_y (G : Grid n m V) (x : ℝ) : ℤ :=
  ⌊(x - G.left) / G.sep_boxes_x⌋ % (n : ℤ)

/-- First-axis index computed by `Grid.get_value_cartesian`:
`-1 - int((y - extent[2]) // sep_boxes_y) % shape[1]` (the `%` binds
before the subtraction). -/
def Grid.index_x (G : Grid n m V) (y : ℝ) : ℤ :=
  -1 - ⌊(y - G.bottom) / G.sep_boxes_y⌋ % (m : ℤ)

/-- Embedding of `Grid.get_value_cartesian(x, y)` on its default
(`linear_interpolation=False`) path.  The outer `Option` models control
flow: `none` is an uncaught `IndexError` from `self.grid[index_x,
index_y]`, `some none` is the Python return value `None` produced by the
`in_grid` guard, and `some (some v)` is a returned grid value. -/
def Grid.get_value_cartesian (G : Grid n m V) (x y : ℝ) :
    Option (Option V) :=
  if ¬ G.in_grid x y then some none
  else
    match npIndex n (G.index_x y), npIndex m (G.index_y x) with
    | some a, some b => some (some (G.grid a b))
    | _, _ => none

/-- State of a `Wrap` object as used by evaluation: the per-dimension
sample minima `xmin = np.min(x, axis=0)` and maxima
`xmax = np.max(x, axis=0)` recorded by `__init__`, and the period
vector `p`.  Space is `d`-dimensional and values are `k`-dimensional. -/
structure Wrap (d k : ℕ) where
  xmin : Fin d → ℝ
  xmax : Fin d → ℝ
  p : Fin d → ℝ

variable {d k : ℕ}

/-- Per-dimension lower image shift of `Wrap._evaluate`:
`mmin = ceil((xmin - X) / p)`. -/
def Wrap.mmin (w : Wrap d k) (X : Fin d → ℝ) : Fin d → ℤ :=
  fun i => ⌈(w.xmin i - X i) / w.p i⌉

/-- Per-dimension upper image shift of `Wrap._evaluate`:
`mmax = floor((xmax - X) / p)`. -/
def Wrap.mmax (w : Wrap d k) (X : Fin d → ℝ) : Fin d → ℤ :=
  fun i => ⌊(w.xmax i - X i) / w.p i⌋

/-- Per-dimension loop extent `mmax - mmin + 1` of the `np.ndindex`
iteration of `Wrap._evaluate` (a non-positive extent yields an empty
iteration, matching `Int.toNat`). -/
def Wrap.imageCount (w : Wrap d k) (X : Fin d → ℝ) : Fin d → ℕ :=
  fun i => (w.mmax X i - w.mmin X i + 1).toNat

/-- Embedding of `Wrap._evaluate(X, method, fill_value)`.  The argument
`gd` abstracts the external collaborator
`scipy.interpolate.griddata(self.x, self.y, ·, method=method,
fill_value=fill_value)[0]`: the interpolant of the stored samples for
the chosen method, returning `fill_value` rows outside their convex
hull.  The source initialises `Y = 0` and, for every offset `o` in
`np.ndindex(mmax - mmin + 1)`, adds the interpolation at
`X + p * (mmin + o)`; real addition is commutative, so the loop
accumulation is the finite sum over all offsets. -/
def Wrap.evaluateOne (w : Wrap d k) (gd : (Fin d → ℝ) → Fin k → ℝ)
    (X : Fin d → ℝ) : Fin k → ℝ :=
  ∑ o : (∀ i, Fin (w.imageCount X i)),
    gd (fun i => X i + w.p i * ((w.mmin X i + (o i : ℕ) : ℤ) : ℝ))

/-- Embedding of `Wrap.evaluate(*X, method, fill_value, processes)`:
`Pool.starmap` applies `_evaluate` to each query point and collects the
results in input order regardless of completion order (documented
`multiprocessing.Pool.starmap` semantics), i.e. an order-preserving map
over the query list. -/
def Wrap.evaluate (w : Wrap d k) (gd : (Fin d → ℝ) → Fin k → ℝ)
    (X : List (Fin d → ℝ)) : List (Fin k → ℝ) :=
  X.map (w.evaluateOne gd)

/-- Box of periodic-image shifts named by the specification for a query
point: all integer lattice vectors `m` with `mmin ≤ m ≤ mmax`
component-wise (the Cartesian product of the per-axis inclusive
ranges). -/
def Wrap.imageBox (w : Wrap d k) (X : Fin d → ℝ) : Finset (Fin d → ℤ) :=
  Fintype.piFinset (fun i => Finset.Icc (w.mmin X i) (w.mmax X i))

/-- Per-point result named by the specification: the sum, over every
shift `m` in the image box, of the interpolation of the samples at
`X + p * m` (with the fill value substituted outside the convex hull,
which the abstract interpolant `gd` performs). -/
def Wrap.specSum (w : Wrap d k) (gd : (Fin d → ℝ) → Fin k → ℝ)
    (X : Fin d → ℝ) : Fin k → ℝ :=
  ∑ m ∈ w.imageBox X, gd (fun i => X i + w.p i * (m i : ℝ))

/-- Heap of array objects for the mutation-level model of
`FFT2Dfilter`: numpy arrays live at integer addresses (one address
space per array type), and `next` is the next fresh address.  This
models Python object identity, so that `deepcopy` followed by in-place
assignment can be distinguished from mutation of the receiver. -/
structure Store (n m : ℕ) (V : Type) where
  cgrids : ℕ → Fin n → Fin m → V
  vgrids : ℕ → Fin n → Fin m → ℝ × ℝ
  rgrids : ℕ → Fin n → Fin m → ℝ
  next : ℕ

/-- An `FFT2Dfilter` object at the mutation level: the addresses of its
`signalFFT`, `wave_vectors` and `wave_vectors_norm` arrays. -/
structure FilterRef where
  sig : ℕ
  wv : ℕ
  nrm : ℕ

/-- In-place update of the coefficient array at address `a` (numpy masked
assignment writes through the reference). -/
def writeC (s : Store n m V) (a : ℕ) (g : Fin n → Fin m → V) :
    Store n m V :=
  { s with cgrids := fun b => if b = a then g else s.cgrids b }

/-- Embedding of `copy.deepcopy(self)`: allocates three fresh arrays
holding copies of the receiver's contents and returns a reference to
them; the receiver's addresses are untouched. -/
def deepcopyF (s : Store n m V) (r : FilterRef) : Store n m V × FilterRef :=
  ({ s with
      cgrids := fun b => if b = s.next then s.cgrids r.sig else s.cgrids b
      vgrids := fun b => if b = s.next + 1 then s.vgrids r.wv else s.vgrids b
      rgrids := fun b => if b = s.next + 2 then s.rgrids r.nrm else s.rgrids b
      next := s.next + 3 },
    ⟨s.next, s.next + 1, s.next + 2⟩)

/-- Pointwise effect of the masked assignment
`filteredFFT.signalFFT[filteredFFT.wave_vectors_norm < threshold] = 0`. -/
def maskLT [Zero V] (nrm : Fin n → Fin m → ℝ) (t : ℝ)
    (sig : Fin n → Fin m → V) : Fin n → Fin m → V :=
  fun i j => if nrm i j < t then 0 else sig i j

/-- Pointwise effect of the masked assignment
`filteredFFT.signalFFT[filteredFFT.wave_vectors_norm > threshold] = 0`. -/
def maskGT [Zero V] (nrm : Fin n → Fin m → ℝ) (t : ℝ)
    (sig : Fin n → Fin m → V) : Fin n → Fin m → V :=
  fun i j => if nrm i j > t then 0 else sig i j

/-- Mutation-level `cut_low_wave_frequencies`: deep-copy the receiver,
then zero the copy's coefficients below threshold in place. -/
def cutLowS [Zero V] (s : Store n m V) (r : FilterRef) (t : ℝ) :
    Store n m V × FilterRef :=
  let c := deepcopyF s r
  (writeC c.1 c.2.sig (maskLT (c.1.rgrids c.2.nrm) t (c.1.cgrids c.2.sig)),
    c.2)

/-- Mutation-level `cut_high_wave_frequencies`. -/
def cutHighS [Zero V] (s : Store n m V) (r : FilterRef) (t : ℝ) :
    Store n m V × FilterRef :=
  let c := deepcopyF s r
  (writeC c.1 c.2.sig (maskGT (c.1.rgrids c.2.nrm) t (c.1.cgrids c.2.sig)),
    c.2)

/-- Mutation-level `cut_low_wave_lengths`: delegates to
`cut_high_wave_frequencies(np.divide(2π, threshold))`.  At threshold 0
the argument is the float `inf`: the copy's masked assignment
`norm > inf` selects no bin, so the in-place write leaves the copy's
coefficient array as copied. -/
def cutLowLenS [Zero V] (s : Store n m V) (r : FilterRef) (t : ℝ) :
    Store n m V × FilterRef :=
  if t = 0 then
    let c := deepcopyF s r
    (writeC c.1 c.2.sig (c.1.cgrids c.2.sig), c.2)
  else cutHighS s r (2 * Real.pi / t)

/-- Mutation-level `cut_high_wave_lengths`: delegates to
`cut_low_wave_frequencies(np.divide(2π, threshold))`.  At threshold 0
the argument is the float `inf`: the copy's masked assignment
`norm < inf` selects every bin, so the in-place write zeroes the copy's
whole coefficient array. -/
def cutHighLenS [Zero V] (s : Store n m V) (r : FilterRef) (t : ℝ) :
    Store n m V × FilterRef :=
  if t = 0 then
    let c := deepcopyF s r
    (writeC c.1 c.2.sig (fun _ _ => 0), c.2)
  else cutLowS s r (2 * Real.pi / t)

/-- Mutation-level `gaussian_filter`: deep-copy the receiver; for
`sigma == 0` return the copy unfiltered, otherwise scale the copy's
coefficients in place by the Gaussian factors of `self.wave_vectors`
(the receiver's wave-vector array, whose contents the copy shares). -/
def gaussianS [AddCommMonoid V] [Module ℂ V] (s : Store n m V)
    (r : FilterRef) (σ : ℝ) : Store n m V × FilterRef :=
  let c := deepcopyF s r
  if σ = 0 then c
  else
    (writeC c.1 c.2.sig (fun i j =>
        ((gaussianCoefficient σ (c.1.vgrids r.wv i j) : ℝ) : ℂ) •
          c.1.cgrids c.2.sig i j),
      c.2)

/-- The receiver `r` is intact going from store `s` to store `t`: the
contents of its three attribute arrays are unchanged. -/
def ReceiverIntact (s t : Store n m V) (r : FilterRef) : Prop :=
  t.cgrids r.sig = s.cgrids r.sig ∧ t.vgrids r.wv = s.vgrids r.wv ∧
    t.rgrids r.nrm = s.rgrids r.nrm

/-- The reference `t` is a fresh object with respect to `r`: none of its
attribute arrays is one of `r`'s. -/
def FreshFrom (t r : FilterRef) : Prop :=
  t.sig ≠ r.sig ∧ t.wv ≠ r.wv ∧ t.nrm ≠ r.nrm

/-- Concrete 1×1 filter state used to witness theorems at a concrete
input. -/
def cFilter : FFT2Dfilter 1 1 ℂ :=
  ⟨fun _ _ => 1, fun _ _ => (0, 0), fun _ _ => 0⟩

/-- Concrete 1×1 filter state whose single bin has wave-vector norm 1,
used to witness the wave-length boundary clauses at threshold `2π`. -/
def cFilter1 : FFT2Dfilter 1 1 ℂ :=
  ⟨fun _ _ => 1, fun _ _ => (1, 0), fun _ _ => 1⟩

/-- Concrete store used to witness the mutation-level theorems: three
allocated arrays at addresses 0, 1, 2. -/
def cStore : Store 1 1 ℂ :=
  ⟨fun _ _ _ => 0, fun _ _ _ => (0, 0), fun _ _ _ => 0, 3⟩

/-- Concrete filter object over `cStore`. -/
def cRef : FilterRef := ⟨0, 1, 2⟩

/-- Concrete 1×1 sample grid used to witness theorems at a concrete
input. -/
def cg : ZMod 1 → ZMod 1 → ℝ := fun _ _ => 0

theorem sampleList_eq_map {n m : ℕ} (g : ZMod n → ZMod m → ℝ) (i j : ℕ) :
    sampleList g i j = (posList n m i j).map (fun q => g q.1 q.2) := rfl

/-- C3 (amended): `FFT2Dfilter.__init__` performs no shape validation at
all.  For every coefficient array, sample spacing, and externally
supplied wave-vector grid — matching leading shape or not — construction
succeeds, stores both arrays exactly as given, and derives the norm
array from the supplied grid. -/
theorem C3_init_never_validates (sig : List (List ℂ)) (d : ℝ)
    (wv : List (List (ℝ × ℝ))) :
    (FFT2Dfilter_init sig d (some wv)).signalFFT = sig ∧
    (FFT2Dfilter_init sig d (some wv)).wave_vectors = wv ∧
    (FFT2Dfilter_init sig d (some wv)).wave_vectors_norm = rawNorm wv :=
  ⟨rfl, rfl, rfl⟩

/-- C3 (counterexample): constructing a filter from a 2×2 coefficient
array and a 1×1 wave-vector grid — leading shapes disagree — does not
fail: the constructor returns a state holding both mismatched arrays
unchanged, so no `ShapeMismatch` error is ever raised. -/
theorem C3_counterexample :
    (FFT2Dfilter_init [[1, 0], [0, 0]] 1
        (some [[((0 : ℝ), (0 : ℝ))]])).signalFFT.length = 2 ∧
    (FFT2Dfilter_init [[1, 0], [0, 0]] 1
        (some [[((0 : ℝ), (0 : ℝ))]])).wave_vectors.length = 1 ∧
    (FFT2Dfilter_init [[1, 0], [0, 0]] 1
        (some [[((0 : ℝ), (0 : ℝ))]])).wave_vectors = [[((0 : ℝ), (0 : ℝ))]] :=
  ⟨rfl, rfl, rfl⟩

/-- C2: cutting low then high wave frequencies at the same threshold `t`
zeroes every Fourier coefficient except those whose wave-vector norm
equals `t` exactly, which survive unchanged; moreover all four cut
operations compare strictly, so a coefficient sitting exactly at the cut
threshold (`t` for the frequency cuts, the effective threshold
`np.divide(2π, t)` for the wave-length cuts) is never zeroed by any of
them.  For nonzero `t` the wave-length cuts' effective threshold is the
real `2π/t`; at `t = 0` it is the float `inf`, which no finite norm ever
equals, so the boundary case is vacuous there — the last two clauses
record the `t = 0` behaviour explicitly (low-length cut zeroes nothing,
high-length cut zeroes every bin, neither touching a bin that sits at
its threshold). -/
theorem C2_threshold_boundary_retained [Zero V] :
    (∀ (f : FFT2Dfilter n m V) (t : ℝ) (i : Fin n) (j : Fin m),
      ((f.cut_low_wave_frequencies t).cut_high_wave_frequencies t).signalFFT i j
        = if f.wave_vectors_norm i j = t then f.signalFFT i j else 0)
    ∧ (∀ (f : FFT2Dfilter n m V) (t : ℝ) (i : Fin n) (j : Fin m),
        f.wave_vectors_norm i j = t →
          (f.cut_low_wave_frequencies t).signalFFT i j = f.signalFFT i j ∧
          (f.cut_high_wave_frequencies t).signalFFT i j = f.signalFFT i j)
    ∧ (∀ (f : FFT2Dfilter n m V) (t : ℝ) (i : Fin n) (j : Fin m), t ≠ 0 →
        f.wave_vectors_norm i j = 2 * Real.pi / t →
          (f.cut_low_wave_lengths t).signalFFT i j = f.signalFFT i j ∧
          (f.cut_high_wave_lengths t).signalFFT i j = f.signalFFT i j)
    ∧ (∀ (f : FFT2Dfilter n m V) (i : Fin n) (j : Fin m),
        (f.cut_low_wave_lengths 0).signalFFT i j = f.signalFFT i j)
    ∧ (∀ (f : FFT2Dfilter n m V) (i : Fin n) (j : Fin m),
        (f.cut_high_wave_lengths 0).signalFFT i j = 0) := by
  refine ⟨fun f t i j => ?_, fun f t i j h => ?_, fun f t i j ht h => ?_,
    fun f i j => ?_, fun f i j => ?_⟩
  · rcases lt_trichotomy (f.wave_vectors_norm i j) t with h | h | h
    · simp [FFT2Dfilter.cut_high_wave_frequencies,
        FFT2Dfilter.cut_low_wave_frequencies, h, not_lt_of_gt h, h.ne]
    · simp [FFT2Dfilter.cut_high_wave_frequencies,
        FFT2Dfilter.cut_low_wave_frequencies, h]
    · simp [FFT2Dfilter.cut_high_wave_frequencies,
        FFT2Dfilter.cut_low_wave_frequencies, h, not_lt_of_gt h, h.ne']
  · constructor <;>
      simp [FFT2Dfilter.cut_low_wave_frequencies,
        FFT2Dfilter.cut_high_wave_frequencies, h]
  · constructor <;>
      simp [FFT2Dfilter.cut_low_wave_lengths,
        FFT2Dfilter.cut_high_wave_lengths,
        FFT2Dfilter.cut_low_wave_frequencies,
        FFT2Dfilter.cut_high_wave_frequencies, ht, h]
  · simp [FFT2Dfilter.cut_low_wave_lengths]
  · simp [FFT2Dfilter.cut_high_wave_lengths]

/-- C2 (witness): the frequency boundary clause applied to a concrete
1×1 filter whose single bin has norm 0 at threshold 0, and the
wave-length boundary clause applied to a filter whose single bin has
norm 1 at threshold `2π` (effective threshold `2π/2π = 1`). -/
theorem C2_threshold_boundary_retained_witness :
    (cFilter.cut_low_wave_frequencies 0).signalFFT 0 0 = cFilter.signalFFT 0 0
    ∧ (cFilter.cut_high_wave_frequencies 0).signalFFT 0 0 = cFilter.signalFFT 0 0
    ∧ (cFilter1.cut_low_wave_lengths (2 * Real.pi)).signalFFT 0 0
        = cFilter1.signalFFT 0 0
    ∧ (cFilter1.cut_high_wave_lengths (2 * Real.pi)).signalFFT 0 0
        = cFilter1.signalFFT 0 0 :=
  ⟨(C2_threshold_boundary_retained.2.1 cFilter 0 0 0 rfl).1,
    (C2_threshold_boundary_retained.2.1 cFilter 0 0 0 rfl).2,
    (C2_threshold_boundary_retained.2.2.1 cFilter1 (2 * Real.pi) 0 0
      Real.two_pi_pos.ne' (div_self Real.two_pi_pos.ne').symm).1,
    (C2_threshold_boundary_retained.2.2.1 cFilter1 (2 * Real.pi) 0 0
      Real.two_pi_pos.ne' (div_self Real.two_pi_pos.ne').symm).2⟩

/-- C6: for `sigma ≠ 0`, `gaussian_filter(sigma)` scales every
coefficient by `exp(-1/2 sigma² |k|²)` for its own bin's wave vector `k`
(the scalar factor acting on the possibly vector-valued entry);
`gaussian_filter(0)` returns a state equal to the original, so
`get_signal()` after a zero-sigma filter equals the unfiltered inverse
transform. -/
theorem C6_gaussian_filter [AddCommMonoid V] [Module ℂ V]
    (f : FFT2Dfilter n m V) (σ : ℝ) :
    (σ ≠ 0 → ∀ (i : Fin n) (j : Fin m),
      (f.gaussian_filter σ).signalFFT i j =
        ((Real.exp (-(1 / 2) * σ ^ 2 *
            ((f.wave_vectors i j).1 ^ 2 + (f.wave_vectors i j).2 ^ 2)) : ℝ) : ℂ)
          • f.signalFFT i j)
    ∧ f.gaussian_filter 0 = f
    ∧ (f.gaussian_filter 0).get_signal = f.get_signal := by
  refine ⟨fun hσ i j => ?_, ?_, ?_⟩
  · simp [FFT2Dfilter.gaussian_filter, hσ, gaussianCoefficient]
  · simp [FFT2Dfilter.gaussian_filter]
  · simp [FFT2Dfilter.gaussian_filter]

/-- C6 (witness): the nonzero-sigma clause applied to the concrete
filter `cFilter` at `sigma = 1`. -/
theorem C6_gaussian_filter_witness :
    (cFilter.gaussian_filter 1).signalFFT 0 0 =
      ((Real.exp (-(1 / 2) * (1 : ℝ) ^ 2 *
          ((cFilter.wave_vectors 0 0).1 ^ 2 + (cFilter.wave_vectors 0 0).2 ^ 2)) : ℝ) : ℂ)
        • cFilter.signalFFT 0 0 :=
  (C6_gaussian_filter cFilter 1).1 one_ne_zero 0 0

theorem receiverIntact_deepcopy (s : Store n m V) (r : FilterRef)
    (h : r.sig < s.next ∧ r.wv < s.next ∧ r.nrm < s.next) :
    ReceiverIntact s (deepcopyF s r).1 r := by
  obtain ⟨h1, h2, h3⟩ := h
  have e1 : r.sig ≠ s.next := by omega
  have e2 : r.wv ≠ s.next + 1 := by omega
  have e3 : r.nrm ≠ s.next + 2 := by omega
  exact ⟨by simp [deepcopyF, e1], by simp [deepcopyF, e2],
    by simp [deepcopyF, e3]⟩

theorem receiverIntact_write (s : Store n m V) (r : FilterRef)
    (g : Fin n → Fin m → V)
    (h : r.sig < s.next ∧ r.wv < s.next ∧ r.nrm < s.next) :
    ReceiverIntact s (writeC (deepcopyF s r).1 (deepcopyF s r).2.sig g) r := by
  obtain ⟨h1, h2, h3⟩ := h
  have e1 : r.sig ≠ s.next := by omega
  have e2 : r.wv ≠ s.next + 1 := by omega
  have e3 : r.nrm ≠ s.next + 2 := by omega
  exact ⟨by simp [writeC, deepcopyF, e1], by simp [writeC, deepcopyF, e2],
    by simp [writeC, deepcopyF, e3]⟩

theorem freshFrom_deepcopy (s : Store n m V) (r : FilterRef)
    (h : r.sig < s.next ∧ r.wv < s.next ∧ r.nrm < s.next) :
    FreshFrom (deepcopyF s r).2 r := by
  obtain ⟨h1, h2, h3⟩ := h
  exact ⟨by simp [deepcopyF]; omega, by simp [deepcopyF]; omega,
    by simp [deepcopyF]; omega⟩

/-- C8: every filtering operation of `FFT2Dfilter` leaves the receiver
object completely unchanged — the contents of its coefficient array,
wave-vector array and wave-vector-norm array are identical before and
after the call — and returns a freshly allocated filter state, for
every store, receiver, threshold and sigma. -/
theorem C8_filters_never_mutate_receiver [AddCommMonoid V] [Module ℂ V]
    (s : Store n m V) (r : FilterRef) (t σ : ℝ)
    (h : r.sig < s.next ∧ r.wv < s.next ∧ r.nrm < s.next) :
    (ReceiverIntact s (cutLowS s r t).1 r ∧ FreshFrom (cutLowS s r t).2 r)
    ∧ (ReceiverIntact s (cutHighS s r t).1 r ∧ FreshFrom (cutHighS s r t).2 r)
    ∧ (ReceiverIntact s (cutLowLenS s r t).1 r ∧
        FreshFrom (cutLowLenS s r t).2 r)
    ∧ (ReceiverIntact s (cutHighLenS s r t).1 r ∧
        FreshFrom (cutHighLenS s r t).2 r)
    ∧ (ReceiverIntact s (gaussianS s r σ).1 r ∧
        FreshFrom (gaussianS s r σ).2 r) := by
  refine ⟨⟨receiverIntact_write s r _ h, freshFrom_deepcopy s r h⟩,
    ⟨receiverIntact_write s r _ h, freshFrom_deepcopy s r h⟩, ?_, ?_, ?_⟩
  · by_cases ht : t = 0
    · exact ⟨by simpa [cutLowLenS, ht] using receiverIntact_write s r _ h,
        by simpa [cutLowLenS, ht] using freshFrom_deepcopy s r h⟩
    · exact ⟨by simpa [cutLowLenS, cutHighS, ht] using
          receiverIntact_write s r _ h,
        by simpa [cutLowLenS, cutHighS, ht] using freshFrom_deepcopy s r h⟩
  · by_cases ht : t = 0
    · exact ⟨by simpa [cutHighLenS, ht] using receiverIntact_write s r _ h,
        by simpa [cutHighLenS, ht] using freshFrom_deepcopy s r h⟩
    · exact ⟨by simpa [cutHighLenS, cutLowS, ht] using
          receiverIntact_write s r _ h,
        by simpa [cutHighLenS, cutLowS, ht] using freshFrom_deepcopy s r h⟩
  · by_cases hσ : σ = 0
    · exact ⟨by simpa [gaussianS, hσ] using receiverIntact_deepcopy s r h,
        by simpa [gaussianS, hσ] using freshFrom_deepcopy s r h⟩
    · exact ⟨by simpa [gaussianS, hσ] using receiverIntact_write s r _ h,
        by simpa [gaussianS, hσ] using freshFrom_deepcopy s r h⟩

/-- C8 (witness): the purity theorem applied to the concrete store
`cStore` and object `cRef`. -/
theorem C8_filters_never_mutate_receiver_witness :
    ReceiverIntact cStore (cutLowS cStore cRef 0).1 cRef ∧
    FreshFrom (cutLowS cStore cRef 0).2 cRef :=
  (C8_filters_never_mutate_receiver cStore cRef 0 0 (by decide)).1

theorem evaluateOne_eq_specSum (w : Wrap d k)
    (gd : (Fin d → ℝ) → Fin k → ℝ) (X : Fin d → ℝ) :
    w.evaluateOne gd X = w.specSum gd X := by
  unfold Wrap.evaluateOne Wrap.specSum Wrap.imageBox
  refine Finset.sum_bij'
    (fun o _ => fun i => w.mmin X i + ((o i : ℕ) : ℤ))
    (fun b hb => fun i => ⟨(b i - w.mmin X i).toNat, by
      have hbi := (Fintype.mem_piFinset.1 hb) i
      rw [Finset.mem_Icc] at hbi
      simp only [Wrap.imageCount]
      omega⟩)
    (fun o ho => ?_) (fun b hb => Finset.mem_univ _)
    (fun o ho => ?_) (fun b hb => ?_) (fun o ho => ?_)
  · simp only [Fintype.mem_piFinset]
    intro i
    rw [Finset.mem_Icc]
    have := (o i).isLt
    simp only [Wrap.imageCount] at this
    omega
  · funext i
    have := (o i).isLt
    simp only [Wrap.imageCount] at this
    exact Fin.ext (by simp only []; omega)
  · funext i
    have hbi := (Fintype.mem_piFinset.1 hb) i
    rw [Finset.mem_Icc] at hbi
    simp only []
    omega
  · rfl

/-- C1: `Wrap.evaluate` returns one output row per query point, in the
order of the input query points, and each row equals the sequential
per-point result: the sum, over every integer lattice shift `m` with
`ceil((min(X) - X₀)/p) ≤ m ≤ floor((max(X) - X₀)/p)` component-wise, of
the interpolation of the samples at `X₀ + p·m` (with the fill value
substituted outside the sample convex hull, performed by the abstract
interpolant `gd`). -/
theorem C1_evaluate_rows_in_order (w : Wrap d k)
    (gd : (Fin d → ℝ) → Fin k → ℝ) (X : List (Fin d → ℝ)) :
    w.evaluate gd X = X.map (w.specSum gd) := by
  unfold Wrap.evaluate
  exact List.map_congr_left (fun X0 _ => evaluateOne_eq_specSum w gd X0)

/-- C7: `Grid.get_value_cartesian` returns the Python value `None`
exactly when the query point lies outside the closed extent rectangle
(the `in_grid` guard is evaluated first and is the only source of a
`None` result); for in-bounds points the cell is resolved by floor
division of the offset from the origin by the box separation followed by
modular wraparound.  Concretely, over extent `(-1, 1, -1, 1)` and shape
`(2, 2)` the query `(0.99, 0.99)` resolves to `grid[0, 1]` — row 0,
column 1, the cell covering the top-right quadrant under the grid's
row-0-at-the-top coordinate convention — and the query `(1.01, 0)`
returns `None`. -/
theorem C7_absent_iff_outside_extent {V : Type} :
    (∀ (n m : ℕ) (G : Grid n m V) (x y : ℝ),
      G.get_value_cartesian x y = some none ↔ ¬ G.in_grid x y)
    ∧ (∀ g : Fin 2 → Fin 2 → V,
      (Grid.mk g (-1, 1, -1, 1)).get_value_cartesian 0.99 0.99
          = some (some (g 0 1))
        ∧ (Grid.mk g (-1, 1, -1, 1)).get_value_cartesian 1.01 0 = some none) := by
  constructor
  · intro n m G x y
    by_cases h : G.in_grid x y
    · rw [Grid.get_value_cartesian, if_neg (not_not_intro h)]
      rcases npIndex n (G.index_x y) with _ | a <;>
        rcases npIndex m (G.index_y x) with _ | b <;> simp [h]
    · simp [Grid.get_value_cartesian, h]
  · intro g
    have hfloor : ⌊((0.99 : ℝ) - -1) / ((1 - -1) / (2 : ℕ))⌋ = 1 := by
      rw [show ((0.99 : ℝ) - -1) / ((1 - -1) / (2 : ℕ)) = 1.99 by norm_num]
      rw [Int.floor_eq_iff]
      norm_num
    constructor
    · have hin : (Grid.mk g (-1, 1, -1, 1)).in_grid 0.99 0.99 := by
        refine ⟨by norm_num [Grid.left], by norm_num [Grid.right],
          by norm_num [Grid.bottom], by norm_num [Grid.top]⟩
      have hx : (Grid.mk g (-1, 1, -1, 1)).index_y (0.99 : ℝ) = 1 := by
        rw [Grid.index_y, Grid.sep_boxes_x]
        norm_num [Grid.left, Grid.right, hfloor]
      have hy : (Grid.mk g (-1, 1, -1, 1)).index_x (0.99 : ℝ) = -2 := by
        rw [Grid.index_x, Grid.sep_boxes_y]
        norm_num [Grid.bottom, Grid.top, hfloor]
      rw [Grid.get_value_cartesian, if_neg (not_not_intro hin), hx, hy]
      rw [show npIndex 2 (-2) = some 0 by decide,
        show npIndex 2 1 = some 1 by decide]
    · have hout : ¬ (Grid.mk g (-1, 1, -1, 1)).in_grid 1.01 0 := by
        intro hc
        have := hc.2.1
        rw [Grid.right] at this
        norm_num at this
      simp [Grid.get_value_cartesian, hout]

theorem sum_flatMap_range (f : ℕ → List ℝ) (n : ℕ) :
    ((List.range n).flatMap f).sum = ∑ i ∈ Finset.range n, (f i).sum := by
  induction n with
  | zero => simp
  | succ n ih =>
    rw [List.range_succ, List.flatMap_append, List.sum_append, ih,
      Finset.sum_range_succ]
    simp

theorem length_flatMap_range (f : ℕ → List ℝ) (n : ℕ) :
    ((List.range n).flatMap f).length
      = ∑ i ∈ Finset.range n, (f i).length := by
  induction n with
  | zero => simp
  | succ n ih =>
    rw [List.range_succ, List.flatMap_append, List.length_append, ih,
      Finset.sum_range_succ]
    simp

theorem g2Dto1D_dic_sum {n m : ℕ} (g : ZMod n → ZMod m → ℝ)
    (L : Fin 2 → ℝ) (r : ℝ) :
    (g2Dto1D_dic g L r).sum =
      ∑ q ∈ (g2Dto1D_sel n m L).filter (fun q => radius L n m q.1 q.2 = r),
        (g (q.1 : ZMod n) (q.2 : ZMod m) + g (-(q.1 : ZMod n)) (q.2 : ZMod m)
          + g (q.1 : ZMod n) (-(q.2 : ZMod m))
          + g (-(q.1 : ZMod n)) (-(q.2 : ZMod m))) := by
  unfold g2Dto1D_dic g2Dto1D_sel gridPairs
  rw [Finset.filter_filter, Finset.sum_filter, Finset.sum_product,
    sum_flatMap_range]
  refine Finset.sum_congr rfl (fun i _ => ?_)
  rw [sum_flatMap_range]
  refine Finset.sum_congr rfl (fun j _ => ?_)
  split
  · simp [sampleList]
    ring
  · simp

theorem g2Dto1D_dic_length {n m : ℕ} (g : ZMod n → ZMod m → ℝ)
    (L : Fin 2 → ℝ) (r : ℝ) :
    (g2Dto1D_dic g L r).length =
      4 * ((g2Dto1D_sel n m L).filter
        (fun q => radius L n m q.1 q.2 = r)).card := by
  unfold g2Dto1D_dic g2Dto1D_sel gridPairs
  rw [Finset.filter_filter, length_flatMap_range]
  have : ∀ i, ((List.range m).flatMap (fun j =>
      if radius L n m i j ≤ r_max L ∧ radius L n m i j = r then
        sampleList g i j else [])).length
      = ∑ j ∈ Finset.range m,
          if radius L n m i j ≤ r_max L ∧ radius L n m i j = r then 4 else 0 := by
    intro i
    rw [length_flatMap_range]
    refine Finset.sum_congr rfl (fun j _ => ?_)
    split
    · simp [sampleList]
    · simp
  simp only [this]
  rw [Finset.card_filter, Finset.mul_sum, Finset.sum_product]
  refine Finset.sum_congr rfl (fun i _ => Finset.sum_congr rfl (fun j _ => ?_))
  split <;> simp

/-- C4: `g2Dto1D(g2D, L)` returns exactly the profile built as the claim
describes it: for each index pair `(i, j)` with `0 ≤ i < n`,
`0 ≤ j < m`, the radius is `sqrt((i·L0/n)² + (j·L1/m)²)`; pairs with
radius at most `min(L)/2` accumulate the four samples
`g2D[i, j], g2D[-i, j], g2D[i, -j], g2D[-i, -j]` under their exact
radius key; the output rows are in strictly ascending radius order, one
per distinct key, and each row's value is the unweighted arithmetic mean
of all accumulated samples (total of the 4-sample bundles divided by 4
times the number of contributing pairs). -/
theorem C4_radial_profile_characterisation {n m : ℕ}
    (g : ZMod n → ZMod m → ℝ) (L : Fin 2 → ℝ) :
    List.Pairwise (fun a b : ℝ × ℝ => a.1 < b.1) (g2Dto1D g L)
    ∧ g2Dto1D g L = ((g2Dto1D_keys n m L).sort (· ≤ ·)).map (fun r =>
        (r, (∑ q ∈ (g2Dto1D_sel n m L).filter
              (fun q => radius L n m q.1 q.2 = r),
            (g (q.1 : ZMod n) (q.2 : ZMod m)
              + g (-(q.1 : ZMod n)) (q.2 : ZMod m)
              + g (q.1 : ZMod n) (-(q.2 : ZMod m))
              + g (-(q.1 : ZMod n)) (-(q.2 : ZMod m)))) /
          (4 * (((g2Dto1D_sel n m L).filter
              (fun q => radius L n m q.1 q.2 = r)).card : ℝ)))) := by
  constructor
  · unfold g2Dto1D
    rw [List.pairwise_map]
    exact Finset.sort_sorted_lt _
  · unfold g2Dto1D
    refine List.map_congr_left (fun r _ => ?_)
    have hlen := g2Dto1D_dic_length g L r
    have hsum := g2Dto1D_dic_sum g L r
    rw [Prod.mk.injEq]
    refine ⟨rfl, ?_⟩
    rw [listMean, hsum, hlen]
    push_cast
    rfl

theorem sublist_flatMap_of_mem {α : Type} (f : α → List ℝ) {l : List α}
    {a : α} (h : a ∈ l) (X : List ℝ) (hX : List.Sublist X (f a)) :
    List.Sublist X (l.flatMap f) := by
  obtain ⟨t1, t2, rfl⟩ := List.append_of_mem h
  rw [List.flatMap_append, List.flatMap_cons]
  exact hX.trans ((List.sublist_append_left (f a) _).trans
    (List.sublist_append_right _ _))

/-- C10: the four "symmetric" samples accumulated by `g2Dto1D` and
`g2Dto1Dsquare` for an index pair on a grid axis are not distinct:
pair `(0, 0)` accumulates the single sample `g2D[0, 0]` four times, a
pair `(i, 0)` accumulates the samples at `(i, 0)` and `(-i, 0)` twice
each (multiplicity 2 each when the two cells are distinct), a pair
`(0, j)` behaves symmetrically, while an off-axis pair with distinct
reflections accumulates each of its four cells once; hence in a bin
whose key is shared by axis and off-axis pairs, axis cells enter the
bin mean with twice the weight — witnessed in the accumulated bin list,
which contains an axis pair's sample at least twice. -/
theorem C10_axis_pairs_double_weight {n m : ℕ} :
    (∀ g : ZMod n → ZMod m → ℝ, sampleList g 0 0 = List.replicate 4 (g 0 0))
    ∧ (∀ (g : ZMod n → ZMod m → ℝ) (i : ℕ),
        sampleList g i 0 = [g i 0, g (-(i : ZMod n)) 0, g i 0,
          g (-(i : ZMod n)) 0])
    ∧ (∀ (g : ZMod n → ZMod m → ℝ) (j : ℕ),
        sampleList g 0 j = [g 0 j, g 0 j, g 0 (-(j : ZMod m)),
          g 0 (-(j : ZMod m))])
    ∧ (posList n m 0 0).count (0, 0) = 4
    ∧ (∀ i : ℕ, (i : ZMod n) ≠ -(i : ZMod n) →
        (posList n m i 0).count ((i : ZMod n), 0) = 2 ∧
        (posList n m i 0).count (-(i : ZMod n), 0) = 2)
    ∧ (∀ i j : ℕ, (i : ZMod n) ≠ -(i : ZMod n) →
        (j : ZMod m) ≠ -(j : ZMod m) →
        (posList n m i j).count ((i : ZMod n), (j : ZMod m)) = 1 ∧
        (posList n m i j).count (-(i : ZMod n), (j : ZMod m)) = 1 ∧
        (posList n m i j).count ((i : ZMod n), -(j : ZMod m)) = 1 ∧
        (posList n m i j).count (-(i : ZMod n), -(j : ZMod m)) = 1)
    ∧ (∀ (g : ZMod n → ZMod m → ℝ) (L : Fin 2 → ℝ) (i : ℕ),
        i < n → 0 < m → radius L n m i 0 ≤ r_max L →
        List.Sublist [g i 0, g i 0]
          (g2Dto1D_dic g L (radius L n m i 0))) := by
  refine ⟨fun g => ?_, fun g i => ?_, fun g j => ?_, ?_, fun i hi => ?_,
    fun i j hi hj => ?_, fun g L i hin hm hsel => ?_⟩
  · simp only [sampleList, Nat.cast_zero, neg_zero]
    rfl
  · simp only [sampleList, Nat.cast_zero, neg_zero]
  · simp only [sampleList, Nat.cast_zero, neg_zero]
  · simp [posList, List.count_cons]
  · constructor <;>
      simp [posList, List.count_cons, Prod.ext_iff, hi, hi.symm,
        Ne.symm hi]
  · refine ⟨?_, ?_, ?_, ?_⟩ <;>
      simp [posList, List.count_cons, Prod.ext_iff, hi, hj, Ne.symm hi,
        Ne.symm hj]
  · have hsub : List.Sublist [g i 0, g i 0] (sampleList g i 0) := by
      simp only [sampleList, Nat.cast_zero, neg_zero]
      exact List.Sublist.cons₂ _ (List.Sublist.cons _
        (List.Sublist.cons₂ _ (List.Sublist.cons _ (List.Sublist.refl []))))
    unfold g2Dto1D_dic
    refine sublist_flatMap_of_mem _ (List.mem_range.2 hin) _ ?_
    refine sublist_flatMap_of_mem _ (List.mem_range.2 hm) _ ?_
    rw [if_pos ⟨hsel, rfl⟩]
    exact hsub

/-- C10 (witness): the multiplicity clauses at concrete inputs — a 4×4
grid with axis pair `(1, 0)` and off-axis pair `(1, 1)`, and the bin of
the 1×1 grid `cg` at the key of pair `(0, 0)`. -/
theorem C10_axis_pairs_double_weight_witness :
    (posList 4 4 1 0).count ((1 : ZMod 4), 0) = 2
    ∧ (posList 4 4 1 1).count ((1 : ZMod 4), (1 : ZMod 4)) = 1
    ∧ List.Sublist [cg 0 0, cg 0 0]
        (g2Dto1D_dic cg (fun _ => 1) (radius (fun _ => 1) 1 1 0 0)) :=
  ⟨((C10_axis_pairs_double_weight (n := 4) (m := 4)).2.2.2.2.1 1
      (by decide)).1,
    ((C10_axis_pairs_double_weight (n := 4) (m := 4)).2.2.2.2.2.1 1 1
      (by decide) (by decide)).1,
    (C10_axis_pairs_double_weight (n := 1) (m := 1)).2.2.2.2.2.2 cg
      (fun _ => 1) 0 (by decide) (by decide)
      (by norm_num [radius, r_max, Real.sqrt_zero])⟩

theorem sum_const_of_mem (c : ℝ) :
    ∀ l : List ℝ, (∀ x ∈ l, x = c) → l.sum = c * l.length := by
  intro l
  induction l with
  | nil => simp
  | cons a t ih =>
    intro h
    have ha : a = c := h a (List.mem_cons_self a t)
    have ht : t.sum = c * t.length :=
      ih (fun x hx => h x (List.mem_cons_of_mem a hx))
    simp [ha, ht]
    ring

theorem listMean_const {l : List ℝ} {c : ℝ} (hne : l ≠ [])
    (h : ∀ x ∈ l, x = c) : listMean l = c := by
  have hlen : (l.length : ℝ) ≠ 0 := by
    have : l.length ≠ 0 := by
      simpa [List.length_eq_zero] using hne
    exact_mod_cast this
  rw [listMean, sum_const_of_mem c l h, mul_div_assoc, div_self hlen,
    mul_one]

theorem foldl_scatter_no_match {n m : ℕ} (rgrid : ZMod n → ZMod m → ℝ)
    (rows : List (ℝ × ℝ)) (init : ZMod n → ZMod m → ℝ) (a : ZMod n)
    (b : ZMod m) (h : ∀ row ∈ rows, rgrid a b ≠ row.1) :
    (rows.foldl (fun acc row => scatterRow rgrid row acc) init) a b
      = init a b := by
  induction rows generalizing init with
  | nil => rfl
  | cons row rest ih =>
    rw [List.foldl_cons, ih _ (fun q hq => h q (List.mem_cons_of_mem row hq))]
    simp [scatterRow, h row (List.mem_cons_self row rest)]

theorem foldl_scatter_unique {n m : ℕ} (rgrid : ZMod n → ZMod m → ℝ)
    (mk : ℝ → ℝ) (keyl : List ℝ) (init : ZMod n → ZMod m → ℝ) (a : ZMod n)
    (b : ZMod m) (hnd : keyl.Nodup) (hmem : rgrid a b ∈ keyl) :
    ((keyl.map (fun r => (r, mk r))).foldl
        (fun acc row => scatterRow rgrid row acc) init) a b
      = mk (rgrid a b) := by
  induction keyl generalizing init with
  | nil => cases hmem
  | cons r0 rest ih =>
    rw [List.map_cons, List.foldl_cons]
    by_cases hr : rgrid a b = r0
    · have hnotin : ∀ row ∈ rest.map (fun r => (r, mk r)),
          rgrid a b ≠ row.1 := by
        intro row hrow
        obtain ⟨r1, hr1, rfl⟩ := List.mem_map.1 hrow
        intro hcon
        exact (List.nodup_cons.1 hnd).1 ((hr.symm.trans hcon).symm ▸ hr1)
      rw [foldl_scatter_no_match rgrid _ _ a b hnotin]
      simp [scatterRow, hr]
    · have hmem2 : rgrid a b ∈ rest := by
        rcases List.mem_cons.1 hmem with h | h
        · exact absurd h hr
        · exact h
      exact ih _ (List.nodup_cons.1 hnd).2 hmem2

/-- C9: `g2Dto1Dgrid` with `average_grid=True`, applied to a sample grid
whose value is constant within each radius band of the radius grid,
returns a reconstructed grid exactly equal to the input sample grid:
every cell is replaced by the mean of its own radius bin, and that mean
equals the cell's original value. -/
theorem C9_cylindrical_reconstruction_exact {n m : ℕ} [NeZero n] [NeZero m]
    (g rgrid : ZMod n → ZMod m → ℝ)
    (h : ∀ a b a2 b2, rgrid a b = rgrid a2 b2 → g a b = g a2 b2) :
    g2Dto1Dgrid_cyl g rgrid = g := by
  funext a b
  have hcast : ∀ (x : ZMod n), ((x.val : ℕ) : ZMod n) = x :=
    fun x => ZMod.natCast_rightInverse x
  have hcastm : ∀ (x : ZMod m), ((x.val : ℕ) : ZMod m) = x :=
    fun x => ZMod.natCast_rightInverse x
  have hkey : rgrid a b ∈ g2Dto1Dgrid_keys rgrid := by
    refine Finset.mem_image.2 ⟨(a.val, b.val), ?_, ?_⟩
    · refine Finset.mem_product.2 ⟨?_, ?_⟩
      · exact Finset.mem_range.2 (ZMod.val_lt a)
      · exact Finset.mem_range.2 (ZMod.val_lt b)
    · rw [hcast a, hcastm b]
  have hmem : rgrid a b ∈ (g2Dto1Dgrid_keys rgrid).sort (· ≤ ·) :=
    (Finset.mem_sort _).2 hkey
  rw [g2Dto1Dgrid_cyl, g2Dto1Dgrid,
    foldl_scatter_unique rgrid _ _ _ a b (Finset.sort_nodup _ _) hmem]
  have hself : g a b ∈ g2Dto1Dgrid_dic g rgrid (rgrid a b) := by
    rw [g2Dto1Dgrid_dic]
    refine List.mem_flatMap.2 ⟨a.val, List.mem_range.2 (ZMod.val_lt a), ?_⟩
    refine List.mem_flatMap.2 ⟨b.val, List.mem_range.2 (ZMod.val_lt b), ?_⟩
    rw [hcast a, hcastm b, if_pos rfl]
    exact List.mem_singleton.2 rfl
  refine listMean_const (List.ne_nil_of_mem hself) ?_
  intro x hx
  rw [g2Dto1Dgrid_dic] at hx
  obtain ⟨i, _, hx2⟩ := List.mem_flatMap.1 hx
  obtain ⟨j, _, hx3⟩ := List.mem_flatMap.1 hx2
  by_cases hc : rgrid i j = rgrid a b
  · rw [if_pos hc] at hx3
    rw [List.mem_singleton.1 hx3]
    exact h _ _ _ _ hc
  · rw [if_neg hc] at hx3
    cases hx3

/-- C9 (witness): the reconstruction theorem applied to the concrete
constant 1×1 grid `cg` with a constant radius grid. -/
theorem C9_cylindrical_reconstruction_exact_witness :
    g2Dto1Dgrid_cyl cg cg = cg :=
  C9_cylindrical_reconstruction_exact cg cg (fun _ _ _ _ _ => rfl)

theorem radius_const (L : ℝ) (n : ℕ) (hn : 0 < n) (hL : 0 < L) (i j : ℕ) :
    radius (fun _ => L) n n i j
      = L / n * Real.sqrt ((i ^ 2 + j ^ 2 : ℕ) : ℝ) := by
  have hLn : (0 : ℝ) ≤ L / n := by positivity
  simp only [radius]
  have he : ((i : ℝ) * (L / n)) ^ 2 + ((j : ℝ) * (L / n)) ^ 2
      = (L / n) ^ 2 * ((i ^ 2 + j ^ 2 : ℕ) : ℝ) := by
    push_cast
    ring
  rw [he, Real.sqrt_mul (sq_nonneg _), Real.sqrt_sq hLn]

theorem radius_cutoff_iff (L : ℝ) (n : ℕ) (hn : 0 < n) (hL : 0 < L)
    (i j : ℕ) :
    (radius (fun _ => L) n n i j ≤ r_max (fun _ => L)
      ↔ ((i ^ 2 + j ^ 2 : ℕ) : ℝ) ≤ sq_r_max n) := by
  have hn' : (0 : ℝ) < n := by exact_mod_cast hn
  have hLn : (0 : ℝ) < L / n := by positivity
  rw [radius_const L n hn hL, r_max, sq_r_max, min_self, mul_comm,
    ← le_div_iff₀ hLn]
  have he : L / 2 / (L / n) = (n : ℝ) / 2 := by
    field_simp
    ring
  rw [he, Real.sqrt_le_left (by positivity)]

theorem radius_eq_iff (L : ℝ) (n : ℕ) (hn : 0 < n) (hL : 0 < L)
    (i j s : ℕ) :
    (radius (fun _ => L) n n i j = L / n * Real.sqrt s
      ↔ i ^ 2 + j ^ 2 = s) := by
  have hLn : L / (n : ℝ) ≠ 0 := by positivity
  rw [radius_const L n hn hL]
  constructor
  · intro h
    have h2 : Real.sqrt ((i ^ 2 + j ^ 2 : ℕ) : ℝ) = Real.sqrt s :=
      mul_left_cancel₀ hLn h
    have h3 : ((i ^ 2 + j ^ 2 : ℕ) : ℝ) = (s : ℝ) :=
      (Real.sqrt_inj (by positivity) (by positivity)).1 h2
    exact_mod_cast h3
  · intro h
    rw [h]

theorem keyfun_strictMono (L : ℝ) (n : ℕ) (hn : 0 < n) (hL : 0 < L) :
    StrictMono (fun s : ℕ => L / n * Real.sqrt s) := by
  intro a b hab
  have hLn : (0 : ℝ) < L / n := by positivity
  refine mul_lt_mul_of_pos_left ?_ hLn
  exact Real.sqrt_lt_sqrt (by positivity) (by exact_mod_cast hab)

theorem sel_const_eq (L : ℝ) (n : ℕ) (hn : 0 < n) (hL : 0 < L) :
    g2Dto1D_sel n n (fun _ => L) = g2Dto1Dsquare_sel n := by
  unfold g2Dto1D_sel g2Dto1Dsquare_sel
  exact Finset.filter_congr (fun q _ => radius_cutoff_iff L n hn hL q.1 q.2)

theorem keys_const_eq (L : ℝ) (n : ℕ) (hn : 0 < n) (hL : 0 < L) :
    g2Dto1D_keys n n (fun _ => L)
      = (g2Dto1Dsquare_keys n).image (fun s : ℕ => L / n * Real.sqrt s) := by
  unfold g2Dto1D_keys g2Dto1Dsquare_keys
  rw [sel_const_eq L n hn hL, Finset.image_image]
  exact Finset.image_congr (fun q _ => radius_const L n hn hL q.1 q.2)

theorem sort_image_keyfun (L : ℝ) (n : ℕ) (hn : 0 < n) (hL : 0 < L) :
    ((g2Dto1Dsquare_keys n).image (fun s : ℕ => L / n * Real.sqrt s)).sort
        (· ≤ ·)
      = ((g2Dto1Dsquare_keys n).sort (· ≤ ·)).map
          (fun s : ℕ => L / n * Real.sqrt s) := by
  have hmono := keyfun_strictMono L n hn hL
  have h4 : (((g2Dto1Dsquare_keys n).sort (· ≤ ·) : List ℕ) : Multiset ℕ)
      = (g2Dto1Dsquare_keys n).val :=
    (Multiset.coe_eq_coe.2 (Finset.sort_perm_toList _ _)).trans
      (by simp [Finset.toList])
  refine List.eq_of_perm_of_sorted ?_ (Finset.sort_sorted _ _) ?_
  · refine (Finset.sort_perm_toList _ _).trans (Multiset.coe_eq_coe.1 ?_)
    rw [show ((((g2Dto1Dsquare_keys n).image
          (fun s : ℕ => L / n * Real.sqrt s)).toList : List ℝ) : Multiset ℝ)
        = ((g2Dto1Dsquare_keys n).image
            (fun s : ℕ => L / n * Real.sqrt s)).val from by simp [Finset.toList]]
    rw [Finset.image_val_of_injOn (hmono.injective.injOn), ← h4]
    exact Multiset.map_coe _ _
  · exact List.Pairwise.map _ (fun a b hab => hmono.monotone hab)
      (Finset.sort_sorted _ _)

theorem dic_const_eq {n : ℕ} (g : ZMod n → ZMod n → ℝ) (L : ℝ)
    (hn : 0 < n) (hL : 0 < L) (s : ℕ) :
    g2Dto1D_dic g (fun _ => L) (L / n * Real.sqrt s)
      = g2Dto1Dsquare_dic g s := by
  unfold g2Dto1D_dic g2Dto1Dsquare_dic
  congr 1
  funext i
  congr 1
  funext j
  exact if_congr (and_congr (radius_cutoff_iff L n hn hL i j)
    (radius_eq_iff L n hn hL i j s)) rfl rfl

/-- C5: on a square grid with a (positive) scalar box length, the
general profile `g2Dto1D` and the squared-radius optimisation
`g2Dto1Dsquare` agree exactly in real arithmetic: the two cutoffs select
the same index pairs (`r ≤ L/2` iff `i² + j² ≤ (n/2)²`), equal-radius
bins merge identically, and the output rows — radius and mean alike —
coincide pair for pair, so the matching of radii is the identity. -/
theorem C5_square_variant_equivalent {n : ℕ} (hn : 0 < n)
    (g : ZMod n → ZMod n → ℝ) (L : ℝ) (hL : 0 < L) :
    g2Dto1D g (fun _ => L) = g2Dto1Dsquare g L := by
  unfold g2Dto1D g2Dto1Dsquare
  rw [keys_const_eq L n hn hL, sort_image_keyfun L n hn hL, List.map_map]
  refine List.map_congr_left (fun s _ => ?_)
  simp only [Function.comp_apply]
  rw [dic_const_eq g L hn hL s]

/-- C5 (witness): the equivalence theorem applied to the concrete 1×1
grid `cg` with box length 1. -/
theorem C5_square_variant_equivalent_witness :
    0 < 1 ∧ (0 : ℝ) < 1 ∧ g2Dto1D cg (fun _ => 1) = g2Dto1Dsquare cg 1 :=
  ⟨Nat.one_pos, one_pos, C5_square_variant_equivalent Nat.one_pos cg 1 one_pos⟩

end ActiveParticles
